import Mathlib

/-!
# Verification of the DSP kernels in `src/dsp.c`

Shallow embedding of the stateful, block-based DSP kernels of `dsp.c`
(the feature-complete variant registered in `dsp_module`): one-pole
filters, triangle oscillator, ADSR envelope, stereo limiter, delay line,
mixers, and the noise generators.  Samples are modelled as rationals
(ideal arithmetic); per-sample loops become structural recursion over the
input block, threading the persisted state exactly as the C code does.
The filter coefficient `calculate_filter_coefficient` involves `cosf` and
`sqrtf`, which have no rational counterpart; the filter kernels are
therefore parameterised over an arbitrary coefficient function, shared by
`lowpass` and `highpass` exactly as the single C function is.
-/

namespace Dsp

/-- `#define SAMPLE_RATE 44100.0` in `dsp.c`. -/
def SAMPLE_RATE : ℚ := 44100

/-! ## One-pole filter (`l_lowpass` / `l_highpass`, dsp.c lines 155-195) -/

/-- One per-sample state update shared verbatim by `l_lowpass` and
`l_highpass`: `last_value += alpha * (input[s] - last_value)` followed by
the denormal flush `last_value = last_value + 1e-20 - 1e-20` (exact
identity over ℚ, kept for faithfulness).  `coeff` stands for
`calculate_filter_coefficient` applied to `input_cutoff[s]` (its
`cosf`/`sqrtf` body is transcendental, so it is an opaque parameter; both
filters receive the same function). -/
def filter_update (coeff : ℚ → ℚ) (last_value input cutoff : ℚ) : ℚ :=
  let alpha := coeff cutoff
  let lv := last_value + alpha * (input - last_value)
  lv + 1 / 10 ^ 20 - 1 / 10 ^ 20

/-- `l_lowpass`: the per-sample loop, over the zipped block of
`(input[s], input_cutoff[s])` pairs.  Returns the output block and the
written-back `last_value`. -/
def lowpass (coeff : ℚ → ℚ) (last_value : ℚ) :
    List (ℚ × ℚ) → List ℚ × ℚ
  | [] => ([], last_value)
  | (x, c) :: rest =>
      let lv := filter_update coeff last_value x c
      let r := lowpass coeff lv rest
      (lv :: r.1, r.2)

/-- `l_highpass`: identical state recurrence, but the output is
`input[s] - last_value`. -/
def highpass (coeff : ℚ → ℚ) (last_value : ℚ) :
    List (ℚ × ℚ) → List ℚ × ℚ
  | [] => ([], last_value)
  | (x, c) :: rest =>
      let lv := filter_update coeff last_value x c
      let r := highpass coeff lv rest
      ((x - lv) :: r.1, r.2)

theorem lowpass_length (coeff : ℚ → ℚ) (lv : ℚ) (samples : List (ℚ × ℚ)) :
    (lowpass coeff lv samples).1.length = samples.length := by
  induction samples generalizing lv with
  | nil => rfl
  | cons p rest ih => cases p; simp [lowpass, ih]

theorem highpass_length (coeff : ℚ → ℚ) (lv : ℚ) (samples : List (ℚ × ℚ)) :
    (highpass coeff lv samples).1.length = samples.length := by
  induction samples generalizing lv with
  | nil => rfl
  | cons p rest ih => cases p; simp [highpass, ih]

theorem lowpass_add_highpass_zipWith (coeff : ℚ → ℚ) (lv : ℚ)
    (samples : List (ℚ × ℚ)) :
    List.zipWith (· + ·) (lowpass coeff lv samples).1
      (highpass coeff lv samples).1 = samples.map Prod.fst := by
  induction samples generalizing lv with
  | nil => rfl
  | cons p rest ih =>
      cases p with
      | mk x c =>
          simp only [lowpass, highpass, List.zipWith_cons_cons, List.map_cons,
            ih]
          congr 1
          ring

/-- C3: run from the same initial `last_value` over the same block of
inputs and per-sample cutoffs (any cutoff sequence, any block length,
any shared coefficient function), the lowpass and highpass output blocks
have the block's length and sum elementwise exactly to the input. -/
theorem lowpass_add_highpass (coeff : ℚ → ℚ) (lv : ℚ)
    (samples : List (ℚ × ℚ)) :
    (lowpass coeff lv samples).1.length = samples.length ∧
    (highpass coeff lv samples).1.length = samples.length ∧
    List.zipWith (· + ·) (lowpass coeff lv samples).1
      (highpass coeff lv samples).1 = samples.map Prod.fst :=
  ⟨lowpass_length coeff lv samples, highpass_length coeff lv samples,
   lowpass_add_highpass_zipWith coeff lv samples⟩

/-! ## Triangle oscillator (`l_triangle`, dsp.c lines 197-219) -/

/-- C truncation toward zero, as used by `fmod`. -/
def ctrunc (x : ℚ) : ℤ := if 0 ≤ x then ⌊x⌋ else ⌈x⌉

/-- C `fmod(x, 1)`: remainder with the sign of the dividend,
`x - trunc(x)`. -/
def fmod1 (x : ℚ) : ℚ := x - ctrunc x

/-- `maxf(0, minf(1, input_duty[s]))`. -/
def clamp01 (x : ℚ) : ℚ := max 0 (min 1 x)

/-- One iteration of the `l_triangle` loop: advance the phase by
`input_frequency[s] / SAMPLE_RATE`, wrap with `fmod(phase, 1)`, clamp the
duty, and output the rising ramp `phase/d * 2 - 1` when `phase < d`, the
falling ramp `(1-phase)/(1-d) * 2 - 1` otherwise.  Returns
`(output, new phase)`.  (In ℚ, `x / 0 = 0`; the denominator actually used
is exposed separately by `triangle_denom`.) -/
def triangle_step (phase freq duty : ℚ) : ℚ × ℚ :=
  let ph := fmod1 (phase + freq / SAMPLE_RATE)
  let d := clamp01 duty
  let out := if ph < d then ph / d * 2 - 1 else (1 - ph) / (1 - d) * 2 - 1
  (out, ph)

/-- `l_triangle` over a block of `(frequency[s], duty[s])` pairs: output
block and written-back `phase`. -/
def triangle (phase : ℚ) : List (ℚ × ℚ) → List ℚ × ℚ
  | [] => ([], phase)
  | (f, dy) :: rest =>
      let st := triangle_step phase f dy
      let r := triangle st.2 rest
      (st.1 :: r.1, r.2)

/-- The denominator of the division selected at one sample of
`l_triangle`: `d` on the rising branch, `1 - d` on the falling branch. -/
def triangle_denom (phase freq duty : ℚ) : ℚ :=
  let ph := fmod1 (phase + freq / SAMPLE_RATE)
  let d := clamp01 duty
  if ph < d then d else 1 - d

/-- The per-sample denominators used over a block of `l_triangle`. -/
def triangle_denoms (phase : ℚ) : List (ℚ × ℚ) → List ℚ
  | [] => []
  | (f, dy) :: rest =>
      triangle_denom phase f dy ::
        triangle_denoms (triangle_step phase f dy).2 rest

theorem fmod1_sub_int (x : ℚ) : ∃ k : ℤ, fmod1 x = x + k :=
  ⟨-ctrunc x, by simp [fmod1, sub_eq_add_neg]⟩

theorem fmod1_bounds (x : ℚ) : -1 < fmod1 x ∧ fmod1 x < 1 := by
  unfold fmod1 ctrunc
  by_cases h : 0 ≤ x
  · rw [if_pos h]
    have h1 : (⌊x⌋ : ℚ) ≤ x := Int.floor_le x
    have h2 : x - 1 < (⌊x⌋ : ℚ) := Int.sub_one_lt_floor x
    constructor <;> linarith
  · rw [if_neg h]
    have h1 : x ≤ (⌈x⌉ : ℚ) := Int.le_ceil x
    have h2 : (⌈x⌉ : ℚ) < x + 1 := Int.ceil_lt_add_one x
    constructor <;> linarith

theorem triangle_phase_sub_sum_int (phase0 : ℚ) (samples : List (ℚ × ℚ)) :
    ∃ k : ℤ, (triangle phase0 samples).2
      = phase0 + (samples.map fun p => p.1 / SAMPLE_RATE).sum + k := by
  induction samples generalizing phase0 with
  | nil => exact ⟨0, by simp [triangle]⟩
  | cons p rest ih =>
      cases p with
      | mk f dy =>
          obtain ⟨k0, hk0⟩ := fmod1_sub_int (phase0 + f / SAMPLE_RATE)
          obtain ⟨k1, hk1⟩ := ih (fmod1 (phase0 + f / SAMPLE_RATE))
          refine ⟨k0 + k1, ?_⟩
          simp only [triangle, triangle_step, List.map_cons, List.sum_cons]
          rw [hk1, hk0]
          push_cast
          ring

theorem triangle_phase_open_bounds (phase0 : ℚ) (h0 : -1 < phase0)
    (h1 : phase0 < 1) (samples : List (ℚ × ℚ)) :
    -1 < (triangle phase0 samples).2 ∧ (triangle phase0 samples).2 < 1 := by
  induction samples generalizing phase0 with
  | nil => exact ⟨h0, h1⟩
  | cons p rest ih =>
      cases p with
      | mk f dy =>
          have hb := fmod1_bounds (phase0 + f / SAMPLE_RATE)
          simp only [triangle, triangle_step]
          exact ih _ hb.1 hb.2

/-- C2 (amended): from a starting phase in [0, 1), the persisted `phase`
after a block is *congruent modulo 1* to `phase0 + Σ f[s]/44100` (they
differ by an integer) and lies in the open interval (−1, 1) — not
necessarily in [0, 1), and not necessarily equal to the mathematical
`mod 1`, because C `fmod` keeps the sign of the dividend. -/
theorem triangle_phase_congruent_mod_one (phase0 : ℚ)
    (samples : List (ℚ × ℚ)) (h0 : 0 ≤ phase0) (h1 : phase0 < 1) :
    (∃ k : ℤ, (triangle phase0 samples).2
      = phase0 + (samples.map fun p => p.1 / SAMPLE_RATE).sum + k) ∧
    -1 < (triangle phase0 samples).2 ∧ (triangle phase0 samples).2 < 1 :=
  ⟨triangle_phase_sub_sum_int phase0 samples,
   triangle_phase_open_bounds phase0 (by linarith) h1 samples⟩

theorem triangle_phase_congruent_mod_one_witness :
    (∃ k : ℤ, (triangle 0 [((44100 : ℚ), 1/2)]).2
      = 0 + ([((44100 : ℚ), 1/2)].map fun p => p.1 / SAMPLE_RATE).sum + k) ∧
    -1 < (triangle 0 [((44100 : ℚ), 1/2)]).2 ∧
    (triangle 0 [((44100 : ℚ), 1/2)]).2 < 1 :=
  triangle_phase_congruent_mod_one 0 [((44100 : ℚ), 1/2)] le_rfl
    (by norm_num)

/-- C2 counterexample: starting phase 0, one sample of frequency −22050
(increment −1/2).  The persisted phase is `fmod(−1/2, 1) = −1/2`: it is
not in [0, 1), and it differs from the mathematical
`(phase0 + Σ f/44100) mod 1 = 1/2`. -/
theorem triangle_phase_negative_counterexample :
    (triangle 0 [((-22050 : ℚ), 1/2)]).2 = -1/2 ∧
    ¬ (0 ≤ (triangle 0 [((-22050 : ℚ), 1/2)]).2) ∧
    Int.fract ((0 : ℚ) + -22050 / 44100) = 1/2 := by
  have hc : ⌈(0 : ℚ) + -22050 / 44100⌉ = 0 := by norm_num
  have h : (triangle 0 [((-22050 : ℚ), 1/2)]).2 = -1/2 := by
    norm_num [triangle, triangle_step, fmod1, ctrunc, SAMPLE_RATE, hc]
  exact ⟨h, by rw [h]; norm_num, by norm_num [Int.fract]⟩

/-- C5: the division is not always away from zero — at starting phase 0
with frequency −22050 and duty 0 the wrapped phase is −1/2 < 0 = d, the
rising branch is selected, and the denominator used by
`output[s] = phase/d * 2 - 1` is exactly 0. -/
theorem triangle_divides_by_zero_at_duty_zero :
    triangle_denoms 0 [((-22050 : ℚ), 0)] = [0] := by
  have hc : ⌈(0 : ℚ) + -22050 / 44100⌉ = 0 := by norm_num
  have hc2 : ⌈-(1/2 : ℚ)⌉ = 0 := by norm_num
  norm_num [triangle_denoms, triangle_denom, triangle_step, fmod1, ctrunc,
    clamp01, SAMPLE_RATE, hc, hc2]

/-! ## ADSR envelope (`l_adsr`, dsp.c lines 221-287) -/

/-- The `ADSR_ATTACK .. ADSR_RELEASE` enum. -/
inductive Stage
  | attack
  | decay
  | sustain
  | release
deriving DecidableEq

/-- The persisted fields of `l_adsr`: `stage`, `value`, `release_delta`. -/
structure AdsrState where
  stage : Stage
  value : ℚ
  release_delta : ℚ
deriving DecidableEq

/-- Defaults used by `opt_integer_field` / `opt_number_field`:
`stage = ADSR_RELEASE`, `value = 0`, `release_delta = 0`. -/
def adsr_default : AdsrState := ⟨Stage.release, 0, 0⟩

/-- The per-block parameters of `l_adsr`. -/
structure AdsrParams where
  attack : ℚ
  decay : ℚ
  sustain : ℚ
  release : ℚ

/-- The gate test at the top of the `l_adsr` loop
(`input_gate[s] >= 0.5f` and the two stage transitions, including the
recomputation of `release_delta` on note-off). -/
def adsr_gate_transition (rel : ℚ) (st : AdsrState) (gate : ℚ) :
    AdsrState :=
  if 1/2 ≤ gate then
    if st.stage = Stage.release then { st with stage := Stage.attack }
    else st
  else if st.stage ≠ Stage.release then
    { stage := Stage.release, value := st.value,
      release_delta := -st.value / max 1 (rel * SAMPLE_RATE) }
  else st

/-- The `switch(stage)` body of `l_adsr`. -/
def adsr_stage_update (attack_delta decay_delta sustain : ℚ)
    (st : AdsrState) : AdsrState :=
  match st.stage with
  | Stage.attack =>
      let v := st.value + attack_delta
      if 1 ≤ v then ⟨Stage.decay, 1, st.release_delta⟩
      else ⟨Stage.attack, v, st.release_delta⟩
  | Stage.decay =>
      let v := st.value + decay_delta
      if v ≤ sustain then ⟨Stage.sustain, sustain, st.release_delta⟩
      else ⟨Stage.decay, v, st.release_delta⟩
  | Stage.sustain => st
  | Stage.release =>
      if 0 < st.value then
        let v := st.value + st.release_delta
        if v < 0 then ⟨Stage.release, 0, st.release_delta⟩
        else ⟨Stage.release, v, st.release_delta⟩
      else st

/-- One full iteration of the `l_adsr` loop. -/
def adsr_step (attack_delta decay_delta sustain rel : ℚ)
    (st : AdsrState) (gate : ℚ) : AdsrState :=
  adsr_stage_update attack_delta decay_delta sustain
    (adsr_gate_transition rel st gate)

/-- The `l_adsr` loop over a block of gate samples; `output[s] = value`
after each update. -/
def adsr_loop (attack_delta decay_delta sustain rel : ℚ)
    (st : AdsrState) : List ℚ → List ℚ × AdsrState
  | [] => ([], st)
  | g :: rest =>
      let st1 := adsr_step attack_delta decay_delta sustain rel st g
      let r := adsr_loop attack_delta decay_delta sustain rel st1 rest
      (st1.value :: r.1, r.2)

/-- `l_adsr`: a single block, computing
`attack_delta = 1 / max(1, attack*SAMPLE_RATE)` and
`decay_delta = -(1-sustain) / max(1, decay*SAMPLE_RATE)` once per call. -/
def adsr (p : AdsrParams) (st : AdsrState) (gates : List ℚ) :
    List ℚ × AdsrState :=
  adsr_loop (1 / max 1 (p.attack * SAMPLE_RATE))
    (-(1 - p.sustain) / max 1 (p.decay * SAMPLE_RATE))
    p.sustain p.release st gates

/-- A sequence of calls to `l_adsr` with per-block parameters and gate
blocks of arbitrary lengths, threading the persisted state. -/
def adsr_blocks (st : AdsrState) :
    List (AdsrParams × List ℚ) → List (List ℚ) × AdsrState
  | [] => ([], st)
  | (p, gates) :: rest =>
      let r1 := adsr p st gates
      let r := adsr_blocks r1.2 rest
      (r1.1 :: r.1, r.2)

/-- The invariant carried across samples: `value ∈ [0,1]` (the assertion
at dsp.c line 279) together with `release_delta ≤ 0`. -/
def AdsrInv (st : AdsrState) : Prop :=
  0 ≤ st.value ∧ st.value ≤ 1 ∧ st.release_delta ≤ 0

/-- The parameter contract of C1: nonnegative times, sustain in [0,1]. -/
def AdsrParamsOK (p : AdsrParams) : Prop :=
  0 ≤ p.attack ∧ 0 ≤ p.decay ∧ 0 ≤ p.release ∧
  0 ≤ p.sustain ∧ p.sustain ≤ 1

theorem adsr_gate_transition_inv (rel : ℚ) (st : AdsrState) (gate : ℚ)
    (h : AdsrInv st) :
    AdsrInv (adsr_gate_transition rel st gate) ∧
      (adsr_gate_transition rel st gate).value = st.value := by
  obtain ⟨h0, h1, hrd⟩ := h
  have hm : (0 : ℚ) < max 1 (rel * SAMPLE_RATE) :=
    lt_of_lt_of_le one_pos (le_max_left _ _)
  have hnd : -st.value / max 1 (rel * SAMPLE_RATE) ≤ 0 :=
    div_nonpos_iff.mpr (Or.inr ⟨neg_nonpos.mpr h0, le_of_lt hm⟩)
  unfold adsr_gate_transition
  split_ifs <;> exact ⟨⟨h0, h1, by first | exact hrd | exact hnd⟩, rfl⟩

theorem adsr_stage_update_inv (ad dd sus : ℚ) (st : AdsrState)
    (had : 0 ≤ ad) (hdd : dd ≤ 0) (hs0 : 0 ≤ sus) (hs1 : sus ≤ 1)
    (h : AdsrInv st) : AdsrInv (adsr_stage_update ad dd sus st) := by
  obtain ⟨stg, v, rd⟩ := st
  obtain ⟨h0, h1, hrd⟩ := h
  simp only [AdsrInv] at *
  cases stg <;> simp only [adsr_stage_update] <;> (try split_ifs) <;>
    refine ⟨?_, ?_, ?_⟩ <;> (try dsimp only) <;> linarith

theorem adsr_step_inv (ad dd sus rel : ℚ) (st : AdsrState) (gate : ℚ)
    (had : 0 ≤ ad) (hdd : dd ≤ 0) (hs0 : 0 ≤ sus) (hs1 : sus ≤ 1)
    (h : AdsrInv st) : AdsrInv (adsr_step ad dd sus rel st gate) :=
  adsr_stage_update_inv ad dd sus _ had hdd hs0 hs1
    (adsr_gate_transition_inv rel st gate h).1

theorem adsr_loop_inv (ad dd sus rel : ℚ) (st : AdsrState)
    (gates : List ℚ)
    (had : 0 ≤ ad) (hdd : dd ≤ 0) (hs0 : 0 ≤ sus) (hs1 : sus ≤ 1)
    (h : AdsrInv st) :
    (∀ v ∈ (adsr_loop ad dd sus rel st gates).1, 0 ≤ v ∧ v ≤ 1) ∧
    AdsrInv (adsr_loop ad dd sus rel st gates).2 := by
  induction gates generalizing st with
  | nil => exact ⟨by simp [adsr_loop], h⟩
  | cons g rest ih =>
      have h1 := adsr_step_inv ad dd sus rel st g had hdd hs0 hs1 h
      have ihr := ih _ h1
      simp only [adsr_loop, List.mem_cons]
      refine ⟨?_, ihr.2⟩
      rintro v (rfl | hv)
      · exact ⟨h1.1, h1.2.1⟩
      · exact ihr.1 v hv

theorem adsr_call_inv (p : AdsrParams) (st : AdsrState) (gates : List ℚ)
    (hp : AdsrParamsOK p) (h : AdsrInv st) :
    (∀ v ∈ (adsr p st gates).1, 0 ≤ v ∧ v ≤ 1) ∧
    AdsrInv (adsr p st gates).2 := by
  obtain ⟨_, _, _, hs0, hs1⟩ := hp
  have hma : (0 : ℚ) < max 1 (p.attack * SAMPLE_RATE) :=
    lt_of_lt_of_le one_pos (le_max_left _ _)
  have hmd : (0 : ℚ) < max 1 (p.decay * SAMPLE_RATE) :=
    lt_of_lt_of_le one_pos (le_max_left _ _)
  have had : 0 ≤ 1 / max 1 (p.attack * SAMPLE_RATE) := by positivity
  have hdd : -(1 - p.sustain) / max 1 (p.decay * SAMPLE_RATE) ≤ 0 :=
    div_nonpos_iff.mpr (Or.inr ⟨by linarith, hmd.le⟩)
  exact adsr_loop_inv _ _ _ _ st gates had hdd hs0 hs1 h

theorem adsr_blocks_inv (blocks : List (AdsrParams × List ℚ)) :
    (∀ b ∈ blocks, AdsrParamsOK b.1) → ∀ st : AdsrState, AdsrInv st →
    (∀ out ∈ (adsr_blocks st blocks).1, ∀ v ∈ out, 0 ≤ v ∧ v ≤ 1) ∧
    AdsrInv (adsr_blocks st blocks).2 := by
  induction blocks with
  | nil => intro _ st h; exact ⟨by simp [adsr_blocks], h⟩
  | cons b rest ih =>
      intro hp st h
      obtain ⟨p, gates⟩ := b
      have hc := adsr_call_inv p st gates (hp _ (List.mem_cons_self _ _)) h
      have ihr := ih (fun q hq => hp q (List.mem_cons_of_mem _ hq)) _ hc.2
      simp only [adsr_blocks, List.mem_cons]
      refine ⟨?_, ihr.2⟩
      rintro out (rfl | hout)
      · exact hc.1
      · exact ihr.1 out hout

/-- C1: starting from the default persisted state
(`stage = Release, value = 0, release_delta = 0`), for every sequence of
blocks with parameters `attack, decay, release ≥ 0` and `sustain ∈ [0,1]`
and arbitrary gate blocks of arbitrary lengths, the envelope `value`
satisfies `0 ≤ value ≤ 1` after every per-sample update (every output
sample, and the persisted value): the assertion at dsp.c line 279 never
fires. -/
theorem adsr_value_in_unit_interval (blocks : List (AdsrParams × List ℚ))
    (hp : ∀ b ∈ blocks, AdsrParamsOK b.1) :
    (∀ out ∈ (adsr_blocks adsr_default blocks).1,
      ∀ v ∈ out, 0 ≤ v ∧ v ≤ 1) ∧
    0 ≤ (adsr_blocks adsr_default blocks).2.value ∧
    (adsr_blocks adsr_default blocks).2.value ≤ 1 := by
  have h := adsr_blocks_inv blocks hp adsr_default
    ⟨le_refl 0, by norm_num [adsr_default], le_refl 0⟩
  exact ⟨h.1, h.2.1, h.2.2.1⟩

theorem adsr_value_in_unit_interval_witness :
    (∀ b ∈ [(AdsrParams.mk 0 0 (1/2) 0, [(1:ℚ), 1, 1, 0, 0])],
      AdsrParamsOK b.1) ∧
    ((∀ out ∈ (adsr_blocks adsr_default
        [(AdsrParams.mk 0 0 (1/2) 0, [(1:ℚ), 1, 1, 0, 0])]).1,
      ∀ v ∈ out, 0 ≤ v ∧ v ≤ 1) ∧
     0 ≤ (adsr_blocks adsr_default
        [(AdsrParams.mk 0 0 (1/2) 0, [(1:ℚ), 1, 1, 0, 0])]).2.value ∧
     (adsr_blocks adsr_default
        [(AdsrParams.mk 0 0 (1/2) 0, [(1:ℚ), 1, 1, 0, 0])]).2.value ≤ 1) := by
  have hp : ∀ b ∈ [(AdsrParams.mk 0 0 (1/2) 0, [(1:ℚ), 1, 1, 0, 0])],
      AdsrParamsOK b.1 := by
    intro b hb
    simp only [List.mem_singleton] at hb
    subst hb
    refine ⟨le_refl 0, le_refl 0, le_refl 0, by norm_num, by norm_num⟩
  exact ⟨hp, adsr_value_in_unit_interval _ hp⟩

/-! ## Stereo limiter (`l_stereo_limiter`, dsp.c lines 289-313) -/

/-- The instant-attack raise: `amplitude = maxf(|L|, |R|)`; when
`amplitude > 1`, `divisor = max(divisor, amplitude)`. -/
def limiter_raise (divisor l r : ℚ) : ℚ :=
  let amplitude := max |l| |r|
  if 1 < amplitude then max divisor amplitude else divisor

/-- `l_stereo_limiter` over a block of `(L, R)` pairs: per sample, raise
the divisor on peaks, emit `(L/divisor, R/divisor)`, then decay
`divisor = max(1, divisor * 0.99)`.  Returns the output block, the
written-back `divisor`, and the `hit_limiter` flag. -/
def stereo_limiter (divisor : ℚ) (hit : Bool) :
    List (ℚ × ℚ) → List (ℚ × ℚ) × ℚ × Bool
  | [] => ([], divisor, hit)
  | (l, r) :: rest =>
      let d := limiter_raise divisor l r
      let hit1 := if 1 < max |l| |r| then true else hit
      let res := stereo_limiter (max 1 (d * (99/100))) hit1 rest
      ((l / d, r / d) :: res.1, res.2)

/-- The divisor at the division/assert point
(`assert(divisor >= 1)`, dsp.c line 304) of each sample. -/
def stereo_limiter_divisors (divisor : ℚ) : List (ℚ × ℚ) → List ℚ
  | [] => []
  | (l, r) :: rest =>
      let d := limiter_raise divisor l r
      d :: stereo_limiter_divisors (max 1 (d * (99/100))) rest

theorem limiter_raise_ge_one (divisor l r : ℚ) (hd : 1 ≤ divisor) :
    1 ≤ limiter_raise divisor l r := by
  unfold limiter_raise
  dsimp only
  split_ifs
  · exact le_trans hd (le_max_left _ _)
  · exact hd

/-- C4: with an incoming `divisor ≥ 1`, the divisor is ≥ 1 at every
per-sample assert point and at write-back, and at every sample whose
peak amplitude `max(|L|,|R|)` exceeds 1 both output channels have
absolute value ≤ 1. -/
theorem stereo_limiter_bounds (d0 : ℚ) (hit : Bool) (ins : List (ℚ × ℚ))
    (hd : 1 ≤ d0) :
    (∀ d ∈ stereo_limiter_divisors d0 ins, 1 ≤ d) ∧
    1 ≤ (stereo_limiter d0 hit ins).2.1 ∧
    (∀ p ∈ ins.zip (stereo_limiter d0 hit ins).1,
      1 < max |p.1.1| |p.1.2| → |p.2.1| ≤ 1 ∧ |p.2.2| ≤ 1) := by
  induction ins generalizing d0 hit with
  | nil =>
      exact ⟨by simp [stereo_limiter_divisors], by simpa [stereo_limiter], by
        simp [stereo_limiter]⟩
  | cons q rest ih =>
      obtain ⟨l, r⟩ := q
      have hdu : 1 ≤ limiter_raise d0 l r := limiter_raise_ge_one d0 l r hd
      have ihr := ih (max 1 (limiter_raise d0 l r * (99/100)))
        (if 1 < max |l| |r| then true else hit) (le_max_left _ _)
      simp only [stereo_limiter, stereo_limiter_divisors, List.zip_cons_cons,
        List.mem_cons]
      refine ⟨?_, ihr.2.1, ?_⟩
      · rintro d (rfl | hdm)
        · exact hdu
        · exact ihr.1 d hdm
      · rintro p (rfl | hp)
        · intro hamp
          have hraise : limiter_raise d0 l r = max d0 (max |l| |r|) := by
            unfold limiter_raise
            rw [if_pos hamp]
          have hge : max |l| |r| ≤ limiter_raise d0 l r := by
            rw [hraise]; exact le_max_right _ _
          have hpos : 0 < limiter_raise d0 l r := lt_of_lt_of_le one_pos hdu
          constructor
          · rw [abs_div, abs_of_pos hpos, div_le_one hpos]
            exact le_trans (le_max_left |l| |r|) hge
          · rw [abs_div, abs_of_pos hpos, div_le_one hpos]
            exact le_trans (le_max_right |l| |r|) hge
        · exact ihr.2.2 p hp

theorem stereo_limiter_bounds_witness :
    (1 : ℚ) ≤ 1 ∧
    ((∀ d ∈ stereo_limiter_divisors 1 [((2 : ℚ), 0)], 1 ≤ d) ∧
     1 ≤ (stereo_limiter 1 false [((2 : ℚ), 0)]).2.1 ∧
     (∀ p ∈ [((2 : ℚ), 0)].zip (stereo_limiter 1 false [((2 : ℚ), 0)]).1,
       1 < max |p.1.1| |p.1.2| → |p.2.1| ≤ 1 ∧ |p.2.2| ≤ 1)) :=
  ⟨le_refl 1, stereo_limiter_bounds 1 false [((2 : ℚ), 0)] (le_refl 1)⟩

/-! ## Mixers (`l_add` dsp.c lines 97-110, `l_multiply` lines 112-127) -/

/-- `l_add`: `memset(output, 0, ...)`, then for each input buffer in
order, `output[s] += input[s]` for `s < sample_count`. -/
def add (sample_count : ℕ) (inputs : List (List ℚ)) : List ℚ :=
  inputs.foldl (fun out inp => out.zipWith (· + ·) inp)
    (List.replicate sample_count 0)

/-- `l_multiply`: fill the output with 1, then for each input buffer in
order, `output[s] *= input[s]` for `s < sample_count`. -/
def multiply (sample_count : ℕ) (inputs : List (List ℚ)) : List ℚ :=
  inputs.foldl (fun out inp => out.zipWith (· * ·) inp)
    (List.replicate sample_count 1)

theorem add_foldl_getD (sample_count : ℕ) (inputs : List (List ℚ)) :
    ∀ acc : List ℚ, acc.length = sample_count →
    (∀ inp ∈ inputs, sample_count ≤ inp.length) →
    (inputs.foldl (fun out inp => out.zipWith (· + ·) inp) acc).length
        = sample_count ∧
    ∀ s < sample_count,
      (inputs.foldl (fun out inp => out.zipWith (· + ·) inp) acc).getD s 0
        = acc.getD s 0 + (inputs.map fun inp => inp.getD s 0).sum := by
  induction inputs with
  | nil => exact fun acc hl _ => ⟨hl, fun s _ => by simp⟩
  | cons inp rest ih =>
      intro acc hl hlen
      have hinp : sample_count ≤ inp.length :=
        hlen _ (List.mem_cons_self _ _)
      have hzl : (acc.zipWith (· + ·) inp).length = sample_count := by
        rw [List.length_zipWith, hl]
        omega
      have ihr := ih (acc.zipWith (· + ·) inp) hzl
        (fun q hq => hlen q (List.mem_cons_of_mem _ hq))
      refine ⟨ihr.1, fun s hs => ?_⟩
      rw [List.foldl_cons, ihr.2 s hs]
      have hacc : (acc.zipWith (· + ·) inp).getD s 0
          = acc.getD s 0 + inp.getD s 0 := by
        have hs1 : s < acc.length := by omega
        have hs2 : s < inp.length := by omega
        have hs3 : s < (acc.zipWith (· + ·) inp).length := by omega
        rw [List.getD_eq_getElem _ _ hs3, List.getD_eq_getElem _ _ hs1,
          List.getD_eq_getElem _ _ hs2, List.getElem_zipWith]
      rw [hacc, List.map_cons, List.sum_cons]
      ring

theorem multiply_foldl_getD (sample_count : ℕ) (inputs : List (List ℚ)) :
    ∀ acc : List ℚ, acc.length = sample_count →
    (∀ inp ∈ inputs, sample_count ≤ inp.length) →
    (inputs.foldl (fun out inp => out.zipWith (· * ·) inp) acc).length
        = sample_count ∧
    ∀ s < sample_count,
      (inputs.foldl (fun out inp => out.zipWith (· * ·) inp) acc).getD s 0
        = acc.getD s 0 * (inputs.map fun inp => inp.getD s 0).prod := by
  induction inputs with
  | nil => exact fun acc hl _ => ⟨hl, fun s _ => by simp⟩
  | cons inp rest ih =>
      intro acc hl hlen
      have hinp : sample_count ≤ inp.length :=
        hlen _ (List.mem_cons_self _ _)
      have hzl : (acc.zipWith (· * ·) inp).length = sample_count := by
        rw [List.length_zipWith, hl]
        omega
      have ihr := ih (acc.zipWith (· * ·) inp) hzl
        (fun q hq => hlen q (List.mem_cons_of_mem _ hq))
      refine ⟨ihr.1, fun s hs => ?_⟩
      rw [List.foldl_cons, ihr.2 s hs]
      have hacc : (acc.zipWith (· * ·) inp).getD s 0
          = acc.getD s 0 * inp.getD s 0 := by
        have hs1 : s < acc.length := by omega
        have hs2 : s < inp.length := by omega
        have hs3 : s < (acc.zipWith (· * ·) inp).length := by omega
        rw [List.getD_eq_getElem _ _ hs3, List.getD_eq_getElem _ _ hs1,
          List.getD_eq_getElem _ _ hs2, List.getElem_zipWith]
      rw [hacc, List.map_cons, List.prod_cons]
      ring

/-- C8: for every number of input buffers (each at least
`sample_count` long) and every block length, `add` produces the
elementwise sum and `multiply` the elementwise product; with no inputs
they produce all-zero and all-one blocks respectively. -/
theorem add_multiply_elementwise (sample_count : ℕ)
    (inputs : List (List ℚ))
    (hlen : ∀ inp ∈ inputs, sample_count ≤ inp.length) :
    (∀ s < sample_count,
      (add sample_count inputs).getD s 0
        = (inputs.map fun inp => inp.getD s 0).sum) ∧
    (∀ s < sample_count,
      (multiply sample_count inputs).getD s 0
        = (inputs.map fun inp => inp.getD s 0).prod) ∧
    add sample_count [] = List.replicate sample_count 0 ∧
    multiply sample_count [] = List.replicate sample_count 1 := by
  have ha := add_foldl_getD sample_count inputs
    (List.replicate sample_count 0) (List.length_replicate _ _) hlen
  have hm := multiply_foldl_getD sample_count inputs
    (List.replicate sample_count 1) (List.length_replicate _ _) hlen
  refine ⟨fun s hs => ?_, fun s hs => ?_, rfl, rfl⟩
  · rw [add, ha.2 s hs, List.getD_eq_getElem _ _ (by simpa using hs),
      List.getElem_replicate]
    ring
  · rw [multiply, hm.2 s hs, List.getD_eq_getElem _ _ (by simpa using hs),
      List.getElem_replicate]
    ring

theorem add_multiply_elementwise_witness :
    (∀ inp ∈ [[(1 : ℚ), 2], [3, 4]], 2 ≤ inp.length) ∧
    ((∀ s < 2,
      (add 2 [[(1 : ℚ), 2], [3, 4]]).getD s 0
        = ([[(1 : ℚ), 2], [3, 4]].map fun inp => inp.getD s 0).sum) ∧
     (∀ s < 2,
      (multiply 2 [[(1 : ℚ), 2], [3, 4]]).getD s 0
        = ([[(1 : ℚ), 2], [3, 4]].map fun inp => inp.getD s 0).prod) ∧
     add 2 ([] : List (List ℚ)) = List.replicate 2 0 ∧
     multiply 2 ([] : List (List ℚ)) = List.replicate 2 1) := by
  have hlen : ∀ inp ∈ [[(1 : ℚ), 2], [3, 4]], 2 ≤ inp.length := by
    intro inp hinp
    simp only [List.mem_cons, List.not_mem_nil, or_false] at hinp
    rcases hinp with rfl | rfl <;> simp
  exact ⟨hlen, add_multiply_elementwise 2 _ hlen⟩

/-! ## RNG and noise (`random_double` dsp.c lines 368-370,
`l_white_noise` lines 372-381, `l_pink_noise` lines 383-415) -/

/-- 64-bit wrap-around modulus. -/
def UINT64_MOD : ℕ := 2 ^ 64

/-- The 128-bit generator state: two 64-bit words. -/
structure Xoroshiro where
  s0 : ℕ
  s1 : ℕ
deriving DecidableEq

/-- 64-bit rotate left. -/
def rotl64 (x k : ℕ) : ℕ :=
  (((x <<< k) % UINT64_MOD) ||| (x >>> (64 - k))) % UINT64_MOD

/-- Modelled from the spec: `xoroshiro128plus.h` is included by dsp.c
but its source is not in the repository snapshot.  Per the spec, `next()`
is "a 128-bit xoroshiro-family generator" producing one raw 64-bit
output per call; this is the standard xoroshiro128+ step named by the
header file: the result is `s0 + s1` (mod 2^64), then
`s1 ^= s0; s0 = rotl(s0,55) ^ s1 ^ (s1 << 14); s1 = rotl(s1,36)`. -/
def xoroshiro_next (g : Xoroshiro) : ℕ × Xoroshiro :=
  let s0 := g.s0 % UINT64_MOD
  let s1 := g.s1 % UINT64_MOD
  let result := (s0 + s1) % UINT64_MOD
  let t := s1 ^^^ s0
  (result,
   ⟨(rotl64 s0 55 ^^^ t ^^^ ((t <<< 14) % UINT64_MOD)) % UINT64_MOD,
    rotl64 t 36⟩)

/-- `random_double`: `(next() >> 11) * 0x1.0p-53`, a uniform draw in
[0, 1). -/
def random_double (g : Xoroshiro) : ℚ × Xoroshiro :=
  let r := xoroshiro_next g
  (((r.1 >>> 11 : ℕ) : ℚ) * (1 / 2 ^ 53), r.2)

/-- `l_white_noise`: `output[s] = random_double() * 2 - 1` for
`sample_count` samples, threading the RNG state. -/
def white_noise (g : Xoroshiro) : ℕ → List ℚ × Xoroshiro
  | 0 => ([], g)
  | n + 1 =>
      let r := random_double g
      let rest := white_noise r.2 n
      ((r.1 * 2 - 1) :: rest.1, rest.2)

theorem xoroshiro_next_lt (g : Xoroshiro) :
    (xoroshiro_next g).1 < 2 ^ 64 :=
  Nat.mod_lt _ (by norm_num [UINT64_MOD])

theorem random_double_unit (g : Xoroshiro) :
    0 ≤ (random_double g).1 ∧ (random_double g).1 < 1 := by
  constructor
  · exact mul_nonneg (Nat.cast_nonneg _) (by norm_num)
  · have hr : (xoroshiro_next g).1 < 2 ^ 64 := xoroshiro_next_lt g
    have hshift : (xoroshiro_next g).1 >>> 11 < 2 ^ 53 := by
      rw [Nat.shiftRight_eq_div_pow]
      omega
    have hq : (((xoroshiro_next g).1 >>> 11 : ℕ) : ℚ) < 2 ^ 53 := by
      exact_mod_cast hshift
    calc ((xoroshiro_next g).1 >>> 11 : ℕ) * (1 / 2 ^ 53 : ℚ)
        < 2 ^ 53 * (1 / 2 ^ 53) := by
          apply mul_lt_mul_of_pos_right hq
          norm_num
      _ = 1 := by norm_num

/-- C9: every `l_white_noise` output sample is `2u − 1` where
`u = (r >> 11)·2^{-53}` for `r` the next raw 64-bit RNG output, so
`u ∈ [0,1)` and the sample lies in [−1, 1); and identical RNG states
produce the identical sample sequence. -/
theorem white_noise_spec (g : Xoroshiro) (n : ℕ) :
    (∀ v ∈ (white_noise g n).1, ∃ u : ℚ,
      (∃ r : ℕ, r < 2 ^ 64 ∧ u = ((r >>> 11 : ℕ) : ℚ) * (1 / 2 ^ 53)) ∧
      0 ≤ u ∧ u < 1 ∧ v = 2 * u - 1 ∧ -1 ≤ v ∧ v < 1) ∧
    (∀ g2 : Xoroshiro, g.s0 = g2.s0 → g.s1 = g2.s1 →
      white_noise g n = white_noise g2 n) := by
  constructor
  · induction n generalizing g with
    | zero => simp [white_noise]
    | succ n ih =>
        intro v hv
        simp only [white_noise, List.mem_cons] at hv
        rcases hv with rfl | hv
        · refine ⟨(random_double g).1,
            ⟨(xoroshiro_next g).1, xoroshiro_next_lt g, rfl⟩,
            (random_double_unit g).1, (random_double_unit g).2, by ring,
            ?_, ?_⟩
          · have := (random_double_unit g).1
            linarith
          · have := (random_double_unit g).2
            linarith
        · exact ih (random_double g).2 v hv
  · intro g2 h0 h1
    obtain ⟨a, b⟩ := g
    obtain ⟨c, d⟩ := g2
    simp only at h0 h1
    rw [h0, h1]

/-- The persisted filter-bank taps `b0..b6` of `l_pink_noise`. -/
structure PinkState where
  b0 : ℚ
  b1 : ℚ
  b2 : ℚ
  b3 : ℚ
  b4 : ℚ
  b5 : ℚ
  b6 : ℚ
deriving DecidableEq

/-- One iteration of the `l_pink_noise` loop (Kellet's coefficients,
taken verbatim from dsp.c lines 395-403): returns `(output, new taps)`. -/
def pink_noise_step (st : PinkState) (white : ℚ) : ℚ × PinkState :=
  let b0 := (99886 / 100000) * st.b0 + white * (555179 / 10000000)
  let b1 := (99332 / 100000) * st.b1 + white * (750759 / 10000000)
  let b2 := (96900 / 100000) * st.b2 + white * (1538520 / 10000000)
  let b3 := (86650 / 100000) * st.b3 + white * (3104856 / 10000000)
  let b4 := (55000 / 100000) * st.b4 + white * (5329522 / 10000000)
  let b5 := -(7616 / 10000) * st.b5 - white * (168980 / 10000000)
  let out := b0 + b1 + b2 + b3 + b4 + b5 + st.b6 + white * (5362 / 10000)
  (out, ⟨b0, b1, b2, b3, b4, b5, white * (115926 / 1000000)⟩)

/-- `l_pink_noise`: `sample_count` iterations drawing
`white = random_double() * 2 - 1` from the shared RNG. -/
def pink_noise (st : PinkState) (g : Xoroshiro) :
    ℕ → List ℚ × PinkState × Xoroshiro
  | 0 => ([], st, g)
  | n + 1 =>
      let r := random_double g
      let p := pink_noise_step st (r.1 * 2 - 1)
      let rest := pink_noise p.2 r.2 n
      (p.1 :: rest.1, rest.2)

/-! ## Delay line (`l_delay_writer` dsp.c lines 329-343,
`l_delay_reader` lines 345-366) -/

/-- `l_delay_writer`: per sample
`buffer[write_index] = input[s]; write_index = (write_index+1) % buffer_size`.
Returns the updated buffer and the written-back `write_index`. -/
def delay_writer (buffer_size : ℕ) (buffer : List ℚ) (write_index : ℕ) :
    List ℚ → List ℚ × ℕ
  | [] => (buffer, write_index)
  | x :: rest =>
      delay_writer buffer_size (buffer.set write_index x)
        ((write_index + 1) % buffer_size) rest

/-- The delay-time-to-samples conversion of `l_delay_reader`:
`maxi(min_delay_samples, mini(max_delay_samples, (int)floor(t * SAMPLE_RATE + 0.5)))`. -/
def delay_samples_of (min_delay max_delay : ℤ) (delay_time : ℚ) : ℤ :=
  max min_delay (min max_delay ⌊delay_time * SAMPLE_RATE + 1/2⌋)

/-- `l_delay_reader`: per sample,
`index = (read_index - delay_samples + buffer_size) % buffer_size`
(C `%` on `int` truncates toward zero: `Int.tmod`), `output[s] =
buffer[index]`, and the local `read_index` is incremented.  Nothing is
written back. -/
def delay_reader (buffer_size : ℕ) (buffer : List ℚ)
    (min_delay max_delay : ℤ) (read_index : ℤ) :
    List ℚ → List ℚ
  | [] => []
  | t :: rest =>
      let d := delay_samples_of min_delay max_delay t
      let index := (read_index - d + buffer_size).tmod buffer_size
      buffer.getD index.toNat 0 ::
        delay_reader buffer_size buffer min_delay max_delay
          (read_index + 1) rest

/-- The caller's persisted `read_index` after a call to `l_delay_reader`:
the function ends with no `set_number_field` for it (dsp.c line 363,
"note: do not write back read_index"), so the field keeps its incoming
value whatever the block contents are. -/
def delay_reader_post_read_index (read_index : ℤ) (_ : List ℚ) : ℤ :=
  read_index

theorem delay_writer_write_index (buffer_size : ℕ) (input : List ℚ) :
    ∀ (buffer : List ℚ) (w : ℕ), w < buffer_size →
      (delay_writer buffer_size buffer w input).2
        = (w + input.length) % buffer_size := by
  induction input with
  | nil =>
      intro buffer w hw
      simp [delay_writer, Nat.mod_eq_of_lt hw]
  | cons x rest ih =>
      intro buffer w hw
      have hB : 0 < buffer_size := lt_of_le_of_lt (Nat.zero_le w) hw
      rw [delay_writer, ih _ _ (Nat.mod_lt _ hB), Nat.mod_add_mod]
      congr 1
      simp [Nat.add_assoc, Nat.add_comm 1 rest.length]

/-- C7: `l_delay_reader` never writes `read_index` back — the persisted
field after the call equals the incoming value for every block — while
`l_delay_writer` does write back its advanced `write_index`
(`(write_index + sample_count) mod buffer_size`). -/
theorem delay_reader_read_index_read_only (read_index : ℤ)
    (delay_times : List ℚ) (buffer_size : ℕ) (buffer : List ℚ)
    (w : ℕ) (input : List ℚ) (hw : w < buffer_size) :
    delay_reader_post_read_index read_index delay_times = read_index ∧
    (delay_writer buffer_size buffer w input).2
      = (w + input.length) % buffer_size :=
  ⟨rfl, delay_writer_write_index buffer_size input buffer w hw⟩

theorem delay_reader_read_index_read_only_witness :
    (1 : ℕ) < 4 ∧
    (delay_reader_post_read_index 2 [(0 : ℚ)] = 2 ∧
     (delay_writer 4 [0, 0, 0, 0] 1 [(5 : ℚ), 6, 7]).2 = (1 + 3) % 4) := by
  refine ⟨by norm_num, ?_, ?_⟩
  · rfl
  · exact (delay_reader_read_index_read_only 2 [(0 : ℚ)] 4 [0, 0, 0, 0] 1
      [(5 : ℚ), 6, 7] (by norm_num)).2

theorem replicate_getD (B j : ℕ) :
    (List.replicate B (0 : ℚ)).getD j 0 = 0 := by
  by_cases h : j < B
  · rw [List.getD_eq_getElem _ _ (by simpa using h),
      List.getElem_replicate]
  · rw [List.getD_eq_default _ _ (by simpa using h)]

theorem set_zero_self (l : List ℚ) (q : ℕ) (h : l.getD q 0 = 0) :
    l.set q 0 = l := by
  apply List.ext_getElem
  · simp
  · intro i h1 h2
    rw [List.getElem_set]
    split_ifs with hq
    · subst hq
      rw [← List.getD_eq_getElem l 0 h2, h]
    · rfl

theorem delay_writer_zeros (B : ℕ) (k : ℕ) :
    ∀ (buf : List ℚ) (w : ℕ), w < B →
    (∀ j < k, buf.getD ((w + j) % B) 0 = 0) →
    delay_writer B buf w (List.replicate k 0) = (buf, (w + k) % B) := by
  induction k with
  | zero =>
      intro buf w hw _
      simp [delay_writer, Nat.mod_eq_of_lt hw]
  | succ k ih =>
      intro buf w hw hz
      have hB : 0 < B := lt_of_le_of_lt (Nat.zero_le w) hw
      have h0 : buf.getD w 0 = 0 := by
        have := hz 0 (Nat.succ_pos k)
        rwa [Nat.add_zero, Nat.mod_eq_of_lt hw] at this
      have hz2 : ∀ j < k, buf.getD (((w + 1) % B + j) % B) 0 = 0 := by
        intro j hj
        have he : w + 1 + j = w + (j + 1) := by omega
        rw [Nat.mod_add_mod, he]
        exact hz (j + 1) (by omega)
      rw [List.replicate_succ, delay_writer, set_zero_self buf w h0,
        ih buf ((w + 1) % B) (Nat.mod_lt _ hB) hz2]
      rw [Nat.mod_add_mod]
      congr 2
      omega

theorem delay_writer_append (B : ℕ) (xs ys : List ℚ) :
    ∀ (buf : List ℚ) (w : ℕ),
    delay_writer B buf w (xs ++ ys)
      = delay_writer B (delay_writer B buf w xs).1
          (delay_writer B buf w xs).2 ys := by
  induction xs with
  | nil => intro buf w; rfl
  | cons x rest ih =>
      intro buf w
      rw [List.cons_append]
      rw [show delay_writer B buf w (x :: (rest ++ ys))
          = delay_writer B (buf.set w x) ((w + 1) % B) (rest ++ ys)
        from rfl]
      rw [show delay_writer B buf w (x :: rest)
          = delay_writer B (buf.set w x) ((w + 1) % B) rest from rfl]
      exact ih _ _

/-- Writing the block `0…0 1 0…0` (the impulse at block offset `i0`)
into an all-zero circular buffer of size `B ≥` block length leaves the
buffer zero except for a 1 at slot `(w0 + i0) mod B`. -/
theorem delay_writer_impulse (B i0 m w0 : ℕ) (hw0 : w0 < B)
    (hn : i0 + 1 + m ≤ B) :
    (delay_writer B (List.replicate B 0) w0
        (List.replicate i0 0 ++ 1 :: List.replicate m 0)).1
      = (List.replicate B 0).set ((w0 + i0) % B) 1 := by
  have hB : 0 < B := by omega
  have h1 := delay_writer_zeros B i0 (List.replicate B 0) w0 hw0
    (fun j _ => replicate_getD B _)
  rw [delay_writer_append, h1]
  dsimp only
  have hw1 : (w0 + i0) % B < B := Nat.mod_lt _ hB
  rw [show delay_writer B (List.replicate B 0) ((w0 + i0) % B)
      (1 :: List.replicate m 0)
    = delay_writer B ((List.replicate B 0).set ((w0 + i0) % B) 1)
        (((w0 + i0) % B + 1) % B) (List.replicate m 0) from rfl]
  have hz2 : ∀ j < m, ((List.replicate B (0:ℚ)).set ((w0 + i0) % B) 1).getD
      ((((w0 + i0) % B + 1) % B + j) % B) 0 = 0 := by
    intro j hj
    rw [Nat.mod_add_mod]
    have hne : ((w0 + i0) % B + 1 + j) % B ≠ (w0 + i0) % B := by
      intro he
      have hmod : (w0 + i0) % B % B = ((w0 + i0) % B + (1 + j)) % B := by
        rw [Nat.mod_mod_of_dvd _ (dvd_refl B)]
        rw [show (w0 + i0) % B + (1 + j) = (w0 + i0) % B + 1 + j from by
          omega]
        exact he.symm
      have hdvd : B ∣ ((w0 + i0) % B + (1 + j)) - (w0 + i0) % B :=
        (Nat.modEq_iff_dvd' (Nat.le_add_right _ _)).mp hmod
      have hdvd2 : B ∣ 1 + j := by simpa using hdvd
      have := Nat.le_of_dvd (by omega) hdvd2
      omega
    have hqlt : ((w0 + i0) % B + 1 + j) % B < B := Nat.mod_lt _ hB
    rw [List.getD_eq_getElem _ _ (by simpa using hqlt), List.getElem_set,
      if_neg (fun hcontra => hne hcontra.symm), List.getElem_replicate]
  rw [delay_writer_zeros B m _ (((w0 + i0) % B + 1) % B)
    (Nat.mod_lt _ hB) hz2]

theorem delay_reader_getD_replicate (B : ℕ) (buf : List ℚ)
    (mn mx : ℤ) (t : ℚ) (n : ℕ) :
    ∀ (r : ℤ) (s : ℕ), s < n →
    (delay_reader B buf mn mx r (List.replicate n t)).getD s 0
      = buf.getD
          ((r + s - delay_samples_of mn mx t + B).tmod B).toNat 0 := by
  induction n with
  | zero => intro r s hs; omega
  | succ n ih =>
      intro r s hs
      rw [List.replicate_succ]
      rw [show delay_reader B buf mn mx r (t :: List.replicate n t)
          = buf.getD
              ((r - delay_samples_of mn mx t + B).tmod B).toNat 0 ::
            delay_reader B buf mn mx (r + 1) (List.replicate n t)
        from rfl]
      cases s with
      | zero =>
          rw [List.getD_cons_zero]
          rw [show (r : ℤ) + ((0 : ℕ) : ℤ) - delay_samples_of mn mx t + B
              = r - delay_samples_of mn mx t + B from by push_cast; ring]
      | succ s' =>
          rw [List.getD_cons_succ, ih (r + 1) s' (by omega)]
          rw [show (r + 1 : ℤ) + s' - delay_samples_of mn mx t + B
              = r + ((s' + 1 : ℕ) : ℤ) - delay_samples_of mn mx t + B
            from by push_cast; ring]

/-- C6: write a single impulse (block `0…0 1 0…0`, the 1 at offset `i0`)
into an all-zero shared buffer, then run the reader on the same block
span with `read_index` equal to the writer's starting `write_index` and
a constant delay time mapping to `d` samples,
`0 ≤ min_delay_samples ≤ d ≤ max_delay_samples ≤ buffer_size`: the
reader's output is the impulse delayed by exactly `d` samples — 1 at
output position `i0 + d`, 0 everywhere else in the block. -/
theorem delay_impulse (B i0 m w0 : ℕ) (mn mx : ℤ) (t : ℚ)
    (hw0 : w0 < B) (hmn : 0 ≤ mn) (hmx : mn ≤ mx) (hmxB : mx ≤ (B : ℤ))
    (hleB : i0 + 1 + m ≤ B)
    (hd : i0 + (delay_samples_of mn mx t).toNat < i0 + 1 + m) :
    ∀ s < i0 + 1 + m,
      (delay_reader B
          (delay_writer B (List.replicate B 0) w0
            (List.replicate i0 0 ++ 1 :: List.replicate m 0)).1
          mn mx w0
          (List.replicate (i0 + 1 + m) t)).getD s 0
        = if s = i0 + (delay_samples_of mn mx t).toNat then 1 else 0 := by
  intro s hs
  have hB : 0 < B := by omega
  have hd0 : 0 ≤ delay_samples_of mn mx t :=
    le_trans hmn (le_max_left _ _)
  have hdB : delay_samples_of mn mx t ≤ (B : ℤ) := by
    unfold delay_samples_of
    exact max_le (le_trans hmx hmxB) (le_trans (min_le_left _ _) hmxB)
  rw [delay_writer_impulse B i0 m w0 hw0 hleB,
    delay_reader_getD_replicate B _ mn mx t _ w0 s hs]
  have hnonneg : 0 ≤ (w0 : ℤ) + s - delay_samples_of mn mx t + B := by
    omega
  have hBpos : (0 : ℤ) < (B : ℤ) := by exact_mod_cast hB
  rw [Int.tmod_eq_emod hnonneg (by omega)]
  have hmodnn : 0 ≤ ((w0 : ℤ) + s - delay_samples_of mn mx t + B) % B :=
    Int.emod_nonneg _ (by omega)
  have hmodlt : ((w0 : ℤ) + s - delay_samples_of mn mx t + B) % B < B :=
    Int.emod_lt_of_pos _ hBpos
  have hw1 : (w0 + i0) % B < B := Nat.mod_lt _ hB
  have hidxlt :
      (((w0 : ℤ) + s - delay_samples_of mn mx t + B) % B).toNat < B := by
    omega
  rw [List.getD_eq_getElem _ _ (by simpa using hidxlt), List.getElem_set]
  by_cases hcase : s = i0 + (delay_samples_of mn mx t).toNat
  · rw [if_pos hcase]
    have harg : (w0 : ℤ) + s - delay_samples_of mn mx t + B
        = ((w0 + i0 : ℕ) : ℤ) + B := by
      have : ((delay_samples_of mn mx t).toNat : ℤ)
          = delay_samples_of mn mx t := Int.toNat_of_nonneg hd0
      push_cast [hcase]
      omega
    have hmodeq : (((w0 : ℤ) + s - delay_samples_of mn mx t + B) % B).toNat
        = (w0 + i0) % B := by
      rw [harg, Int.add_emod_self,
        show ((w0 + i0 : ℕ) : ℤ) % (B : ℤ) = (((w0 + i0) % B : ℕ) : ℤ)
          from by push_cast; rfl,
        Int.toNat_natCast]
    rw [if_pos hmodeq.symm]
  · rw [if_neg hcase]
    have hne : ¬ ((w0 + i0) % B
        = (((w0 : ℤ) + s - delay_samples_of mn mx t + B) % B).toNat) := by
      intro he
      have he2 : (((w0 + i0) % B : ℕ) : ℤ)
          = ((w0 : ℤ) + s - delay_samples_of mn mx t + B) % B := by
        rw [he, Int.toNat_of_nonneg hmodnn]
      have hcast : (((w0 + i0) % B : ℕ) : ℤ)
          = ((w0 + i0 : ℕ) : ℤ) % (B : ℤ) := by push_cast; rfl
      have hmod2 : ((w0 + i0 : ℕ) : ℤ) % (B : ℤ)
          = ((w0 : ℤ) + s - delay_samples_of mn mx t + B) % B := by
        rw [← hcast]; exact he2
      have hdvd : (B : ℤ) ∣
          (((w0 : ℤ) + s - delay_samples_of mn mx t + B)
            - ((w0 + i0 : ℕ) : ℤ)) := by
        have hmodeq2 : Int.ModEq (B : ℤ) ((w0 + i0 : ℕ) : ℤ)
            ((w0 : ℤ) + s - delay_samples_of mn mx t + B) := hmod2
        exact hmodeq2.dvd
      have hdvd2 : (B : ℤ) ∣
          ((s : ℤ) - ((i0 : ℤ) + delay_samples_of mn mx t)) := by
        have heq : ((w0 : ℤ) + s - delay_samples_of mn mx t + B)
            - ((w0 + i0 : ℕ) : ℤ)
            = ((s : ℤ) - ((i0 : ℤ) + delay_samples_of mn mx t)) + B := by
          push_cast
          ring
        rw [heq] at hdvd
        have := (Int.dvd_add_right (dvd_refl (B : ℤ))).mp
          (by rwa [add_comm] at hdvd)
        exact this
      have htoNat : ((delay_samples_of mn mx t).toNat : ℤ)
          = delay_samples_of mn mx t := Int.toNat_of_nonneg hd0
      have hzero : (s : ℤ) - ((i0 : ℤ) + delay_samples_of mn mx t) = 0 := by
        apply Int.eq_zero_of_abs_lt_dvd hdvd2
        rw [abs_lt]
        constructor <;> omega
      have : s = i0 + (delay_samples_of mn mx t).toNat := by omega
      exact hcase this
    rw [if_neg hne, List.getElem_replicate]

theorem delay_impulse_witness :
    ((3 : ℕ) < 8 ∧ (0 : ℤ) ≤ 0 ∧ (0 : ℤ) ≤ 8 ∧ (8 : ℤ) ≤ (8 : ℕ) ∧
     (1 : ℕ) + 1 + 4 ≤ 8 ∧
     1 + (delay_samples_of 0 8 (2/44100)).toNat < 1 + 1 + 4) ∧
    ∀ s < 1 + 1 + 4,
      (delay_reader 8
          (delay_writer 8 (List.replicate 8 0) 3
            (List.replicate 1 0 ++ 1 :: List.replicate 4 0)).1
          0 8 3
          (List.replicate (1 + 1 + 4) (2/44100))).getD s 0
        = if s = 1 + (delay_samples_of 0 8 (2/44100)).toNat then 1
          else 0 := by
  have h2 : (Int.toNat 2) = 2 := rfl
  have hd : 1 + (delay_samples_of 0 8 (2/44100 : ℚ)).toNat < 1 + 1 + 4 := by
    norm_num [delay_samples_of, SAMPLE_RATE, min_def, max_def, h2]
  exact ⟨⟨by norm_num, le_refl 0, by norm_num, by norm_num, by norm_num,
      hd⟩,
    delay_impulse 8 1 4 3 0 8 (2/44100) (by norm_num) (le_refl 0)
      (by norm_num) (by norm_num) (by norm_num) hd⟩

/-! ## Zero-length blocks -/

/-- C10: with `sample_count = 0` (an empty block) every stateful kernel
writes no output samples and writes back exactly the persisted state it
read in (after defaulting): the per-sample loop body never runs. -/
theorem zero_sample_count_preserves_state (coeff : ℚ → ℚ) (lv ph d0 : ℚ)
    (p : AdsrParams) (st : AdsrState) (B : ℕ) (buf : List ℚ) (w : ℕ)
    (mn mx : ℤ) (r : ℤ) (pk : PinkState) (g : Xoroshiro) :
    lowpass coeff lv [] = ([], lv) ∧
    highpass coeff lv [] = ([], lv) ∧
    triangle ph [] = ([], ph) ∧
    adsr p st [] = ([], st) ∧
    stereo_limiter d0 false [] = ([], d0, false) ∧
    delay_writer B buf w [] = (buf, w) ∧
    delay_reader B buf mn mx r [] = [] ∧
    delay_reader_post_read_index r [] = r ∧
    pink_noise pk g 0 = ([], pk, g) :=
  ⟨rfl, rfl, rfl, rfl, rfl, rfl, rfl, rfl, rfl⟩

end Dsp
